import Mathlib

/-!
Verification of the niri-launcher editor window-layout synchronization
engine against its specification.

The development shallowly embeds the Rust sources:
  * `src/vim.rs`   — window-interval clustering (`Vim::calculate_columns`),
    column text widths (`WinColumn::textwidth`), width calculation
    (`Vim::get_desired_symbol_width`), and editor-session discovery
    (`Vim::try_session_from`);
  * `src/pstree.rs` — process enumeration and tree construction
    (`get_process_record`, `get_process_records`, `populate_node_helper`,
    `build_process_tree`).

Machine integers (Rust `i64`/`i32`) are modelled as `Int` (the values in
play — screen coordinates, text widths, pids — are far from overflow),
`f64` arithmetic of the width calculator as exact rationals `ℚ`, and
fallible operations as `Option`/`Except`.
-/

namespace NiriLauncher

/-! ## Data model of `src/vim.rs` -/

/-- Model of a `neovim_lib` `Window` as seen by `WinColumn::from_window` and
`WinColumn::textwidth`: `pos` is `win.get_position(nvim)?.1` (the horizontal
start), `width` is `win.get_width(nvim)?`, and `tw` is the buffer option
`textwidth` when every RPC step of the lookup chain succeeds (`get_buf`,
`get_option`, `as_i64`); `none` collapses the three `unwrap_or(80)`
fallbacks of the chain into one. -/
structure Window where
  pos : Int
  width : Int
  tw : Option Int
deriving DecidableEq, Repr

/-- Model of `Win` from `src/vim.rs`: a window together with its stacking
counter `num_colums`. -/
structure Win where
  win : Window
  num_colums : Int
deriving DecidableEq, Repr

/-- Model of `Win::new`: the counter starts at 1. -/
def Win.new (w : Window) : Win := ⟨w, 1⟩

/-- Model of `Win::get_columns`. -/
def Win.get_columns (w : Win) : Int := w.num_colums

/-- Model of `WinColumn` from `src/vim.rs`. The Rust field `end` is a Lean
keyword, so it is written `«end»`. -/
structure WinColumn where
  start : Int
  «end» : Int
  windows : List Win
deriving DecidableEq, Repr

/-- Model of `WinColumn::from_window`: `start = pos.1`,
`end = pos.1 + width`, and a singleton window list. -/
def WinColumn.from_window (w : Window) : WinColumn :=
  ⟨w.pos, w.pos + w.width, [Win.new w]⟩

/-- Model of `WinColumn::textwidth`: fold over the column's windows starting
from 0, skipping windows attached to more than one column and otherwise
taking the maximum of the window's buffer `textwidth` (default 80) and the
accumulator. -/
def WinColumn.textwidth (c : WinColumn) : Int :=
  c.windows.foldl
    (fun fin w =>
      if w.get_columns > 1 then fin
      else max (w.win.tw.getD 80) fin) 0

/-- Model of `WinColumn::add_win` (present in the source, shown below never
to be invoked by the clustering loop). -/
def WinColumn.add_win (c : WinColumn) (w : Window) : WinColumn :=
  { c with windows := c.windows ++ [Win.new w] }

/-! ## Clustering (`Vim::calculate_columns`) -/

/-- Model of the inner placement scan of `Vim::calculate_columns`
(`src/vim.rs` lines 129–179): scan the existing columns left to right and
either keep walking (`continue`), insert the candidate before/after the
current column (`place_to = Some i` / `Some (i+1)` followed by `break`),
merge by shrinking the current column (`place_to = None`), or drop the
candidate (`place_to = None`). The recursive form returns the updated
column vector directly; falling off the end corresponds to the initial
`place_to = Some(columns.len())` (append). -/
def place_column (column : WinColumn) : List WinColumn → List WinColumn
  | [] => [column]
  | c :: rest =>
    -- Current last less then new first - go next
    if c.«end» ≤ column.start then
      c :: place_column column rest
    -- New last less then current first - place new before current
    else if column.«end» ≤ c.start then
      column :: c :: rest
    -- Starts are the same - shrink to minimal size, merge (no insertion)
    else if c.start = column.start then
      { c with «end» := min column.«end» c.«end» } :: rest
    -- Ends are the same - shrink current to start of new, place new after
    else if c.«end» = column.«end» then
      { c with «end» := min c.«end» column.start } :: column :: rest
    -- New is subcolumn of current - shrink current, place new after
    else if c.start < column.start ∧ column.«end» > c.«end» then
      { c with «end» := column.start } :: column :: rest
    -- Current is subcolumn of new - shrink new, place new before
    else if column.start < c.start ∧ c.«end» > column.«end» then
      { column with «end» := c.start } :: c :: rest
    -- Bad option - no obvious columns. Ignore new column
    else
      c :: rest

/-- Model of `Vim::calculate_columns`: each window of the current tab page
becomes a candidate column via `WinColumn::from_window` and is placed into
the accumulated column vector by the scan loop, in RPC order. -/
def calculate_columns (wins : List Window) : List WinColumn :=
  wins.foldl (fun columns w => place_column (WinColumn.from_window w) columns) []

/-- Observable content of a column: `(start, end, textwidth)`. -/
def col_repr (c : WinColumn) : Int × Int × Int :=
  (c.start, c.«end», c.textwidth)

/-- Observable content of an input window, for comparison with the column
it generates: `(start, start + width, buffer textwidth with default 80)`. -/
def win_repr (w : Window) : Int × Int × Int :=
  (w.pos, w.pos + w.width, w.tw.getD 80)

/-- Turning a clustered column back into a single window input, as the
idempotence property of the specification describes. -/
def col_to_window (c : WinColumn) : Window :=
  ⟨c.start, c.«end» - c.start, some c.textwidth⟩

/-- Pairwise disjointness of two window intervals. -/
def win_disjoint (a b : Window) : Prop :=
  a.pos + a.width ≤ b.pos ∨ b.pos + b.width ≤ a.pos

instance (a b : Window) : Decidable (win_disjoint a b) := by
  unfold win_disjoint; infer_instance

example : (calculate_columns [⟨0, 100, some 80⟩, ⟨0, 50, some 100⟩]).map col_repr
    = [(0, 50, 80)] := by decide

example : (calculate_columns [⟨5, 5, some 80⟩, ⟨0, 10, some 80⟩]).map col_repr
    = [(5, 0, 80), (0, 10, 80)] := by decide

example : (calculate_columns [⟨0, 10, some 80⟩, ⟨5, 5, some 80⟩]).map col_repr
    = [(0, 5, 80), (5, 10, 80)] := by decide

example : (calculate_columns [⟨0, 10, some 80⟩, ⟨10, 10, some 80⟩, ⟨5, 20, some 80⟩]).map col_repr
    = [(0, 5, 80), (5, 25, 80), (10, 20, 80)] := by decide

/-! ## Helper lemmas about `textwidth` and the placement scan -/

theorem textwidth_foldl_le (l : List Win) : ∀ init : Int,
    init ≤ l.foldl
      (fun fin w =>
        if w.get_columns > 1 then fin
        else max (w.win.tw.getD 80) fin) init := by
  induction l with
  | nil => intro init; simp
  | cons x xs ih =>
    intro init
    rw [List.foldl_cons]
    refine le_trans ?_ (ih _)
    dsimp only
    split
    · exact le_refl _
    · exact le_max_right _ _

theorem textwidth_nonneg (c : WinColumn) : 0 ≤ c.textwidth :=
  textwidth_foldl_le c.windows 0

theorem textwidth_singleton (c : WinColumn) (w : Window)
    (h : c.windows = [Win.new w]) : c.textwidth = max (w.tw.getD 80) 0 := by
  simp [WinColumn.textwidth, h, Win.new, Win.get_columns]

theorem col_repr_update_end (c : WinColumn) (e : Int) :
    col_repr { c with «end» := e } = (c.start, e, c.textwidth) := rfl

theorem place_column_all_before (column : WinColumn) (cs : List WinColumn)
    (h : ∀ c ∈ cs, c.«end» ≤ column.start) :
    place_column column cs = cs ++ [column] := by
  induction cs with
  | nil => rfl
  | cons c rest ih =>
    have hc : c.«end» ≤ column.start := h c (List.mem_cons_self c rest)
    simp only [place_column, if_pos hc,
      ih (fun x hx => h x (List.mem_cons_of_mem c hx)), List.cons_append]

theorem place_column_disjoint_split (column : WinColumn) (cs : List WinColumn)
    (h : ∀ c ∈ cs, c.«end» ≤ column.start ∨ column.«end» ≤ c.start) :
    ∃ l₁ l₂, cs = l₁ ++ l₂ ∧ place_column column cs = l₁ ++ column :: l₂ ∧
      (∀ c ∈ l₁, c.«end» ≤ column.start) ∧
      (∀ c, l₂.head? = some c → column.«end» ≤ c.start) := by
  induction cs with
  | nil =>
    exact ⟨[], [], rfl, rfl, by simp, by simp⟩
  | cons c rest ih =>
    by_cases h1 : c.«end» ≤ column.start
    · obtain ⟨l₁, l₂, hsplit, hplace, hl₁, hl₂⟩ :=
        ih (fun x hx => h x (List.mem_cons_of_mem c hx))
      refine ⟨c :: l₁, l₂, by rw [List.cons_append, hsplit], ?_, ?_, hl₂⟩
      · simp only [place_column, if_pos h1, hplace, List.cons_append]
      · intro x hx
        rcases List.mem_cons.mp hx with rfl | hx
        · exact h1
        · exact hl₁ x hx
    · have h2 : column.«end» ≤ c.start := by
        rcases h c (List.mem_cons_self c rest) with hc | hc
        · exact absurd hc h1
        · exact hc
      refine ⟨[], c :: rest, rfl, ?_, by simp, ?_⟩
      · simp only [place_column, if_neg h1, if_pos h2, List.nil_append]
      · intro x hx
        simp only [List.head?_cons, Option.some.injEq] at hx
        subst hx
        exact h2

theorem place_column_preserves (column : WinColumn) (cs : List WinColumn)
    (hdisj : ∀ c ∈ cs, c.«end» ≤ column.start ∨ column.«end» ≤ c.start)
    (hval : ∀ c ∈ cs, c.start < c.«end») (hcol : column.start < column.«end»)
    (hpair : cs.Pairwise (fun a b => a.«end» ≤ b.start)) :
    (∀ c ∈ place_column column cs, c.start < c.«end») ∧
      (place_column column cs).Pairwise (fun a b => a.«end» ≤ b.start) ∧
      (∀ c ∈ place_column column cs, c = column ∨ c ∈ cs) := by
  obtain ⟨l₁, l₂, hsplit, hplace, hl₁, hl₂⟩ :=
    place_column_disjoint_split column cs hdisj
  subst hsplit
  rw [hplace]
  rw [List.pairwise_append] at hpair
  obtain ⟨hp₁, hp₂, hcross⟩ := hpair
  refine ⟨?_, ?_, ?_⟩
  · intro c hc
    rcases List.mem_append.mp hc with hc | hc
    · exact hval c (List.mem_append.mpr (Or.inl hc))
    · rcases List.mem_cons.mp hc with rfl | hc
      · exact hcol
      · exact hval c (List.mem_append.mpr (Or.inr hc))
  · rw [List.pairwise_append]
    refine ⟨hp₁, ?_, ?_⟩
    · rw [List.pairwise_cons]
      refine ⟨?_, hp₂⟩
      intro b hb
      cases l₂ with
      | nil => exact absurd hb (List.not_mem_nil b)
      | cons hd tl =>
        have hhd : column.«end» ≤ hd.start := hl₂ hd rfl
        rcases List.mem_cons.mp hb with rfl | hb
        · exact hhd
        · have hhdval : hd.start < hd.«end» :=
            hval hd (List.mem_append.mpr (Or.inr (List.mem_cons_self hd tl)))
          have hhdb : hd.«end» ≤ b.start :=
            (List.pairwise_cons.mp hp₂).1 b hb
          exact le_trans hhd (le_trans (le_of_lt hhdval) hhdb)
    · intro a ha b hb
      rcases List.mem_cons.mp hb with rfl | hb
      · exact hl₁ a ha
      · exact hcross a ha b hb
  · intro c hc
    rcases List.mem_append.mp hc with hc | hc
    · exact Or.inr (List.mem_append.mpr (Or.inl hc))
    · rcases List.mem_cons.mp hc with rfl | hc
      · exact Or.inl rfl
      · exact Or.inr (List.mem_append.mpr (Or.inr hc))

/-! ## Claim C1 -/

/-- Claim C1 counterexample: windows `[0,100)` (textwidth 80) and `[0,50)`
(textwidth 100) share the same start and genuinely overlap. Clustering does
merge them into one column with `end = 50 = min(100, 50)`, but the merged
column's text width is 80 — the first window's value — not
`max 80 100 = 100` as the claim states: the candidate's window is dropped
together with its text-wrap setting (`add_win` is never called). -/
theorem c1_counterexample :
    (calculate_columns [⟨0, 100, some 80⟩, ⟨0, 50, some 100⟩]).map col_repr
        = [(0, 50, 80)] ∧
      (80 : Int) ≠ max 80 100 := by
  decide

/-- Claim C1 amended: for two genuinely overlapping windows sharing an
identical horizontal start, clustering merges them into a single column
whose end equals the minimum of the two ends, with no separate insertion of
the second window; the merged column's text-wrap column is the FIRST
window's value — the candidate's text-wrap contribution is discarded. -/
theorem c1_amended (a b : Window)
    (hs : b.pos = a.pos) (ha : 0 < a.width) (hb : 0 < b.width)
    (htw : 0 ≤ a.tw.getD 80) :
    (calculate_columns [a, b]).map col_repr
      = [(a.pos, min (b.pos + b.width) (a.pos + a.width), a.tw.getD 80)] := by
  have h1 : ¬ ((WinColumn.from_window a).«end» ≤ (WinColumn.from_window b).start) := by
    show ¬ (a.pos + a.width ≤ b.pos)
    omega
  have h2 : ¬ ((WinColumn.from_window b).«end» ≤ (WinColumn.from_window a).start) := by
    show ¬ (b.pos + b.width ≤ a.pos)
    omega
  have h3 : (WinColumn.from_window a).start = (WinColumn.from_window b).start := by
    show a.pos = b.pos
    omega
  have hone : calculate_columns [a, b]
      = place_column (WinColumn.from_window b) [WinColumn.from_window a] := rfl
  rw [hone]
  simp only [place_column, if_neg h1, if_neg h2, if_pos h3]
  simp only [List.map_cons, List.map_nil, col_repr_update_end]
  rw [textwidth_singleton (WinColumn.from_window a) a rfl, max_eq_left htw]
  rfl

/-- Claim C1 witness input: the amended merge at `a = ⟨0, 100, some 80⟩`,
`b = ⟨0, 50, some 100⟩`. -/
theorem c1_amended_witness :
    (0 : Int) = (0 : Int) ∧ (0 : Int) < 100 ∧ (0 : Int) < 50 ∧
      (0 : Int) ≤ (some (80 : Int)).getD 80 ∧
      (calculate_columns [⟨0, 100, some 80⟩, ⟨0, 50, some 100⟩]).map col_repr
        = [(0, min 50 100, 80)] :=
  ⟨rfl, by decide, by decide, by decide,
    c1_amended ⟨0, 100, some 80⟩ ⟨0, 50, some 100⟩ rfl (by decide) (by decide)
      (by decide)⟩

/-! ## Claim C3 -/

/-- Claim C3 counterexample: windows `[5,10)` and `[0,10)` overlap and share
the end 10 with differing starts; the smaller window (start 5, the larger
start coordinate) should give the boundary 5. Processing the larger-start
window first instead yields columns `(5,0)` and `(0,10)`: the shared value
is 0, not 5, and the first column is degenerate — so the result does depend
on the processing order. -/
theorem c3_counterexample :
    (calculate_columns [⟨5, 5, some 80⟩, ⟨0, 10, some 80⟩]).map
        (fun c => (c.start, c.«end»)) = [(5, 0), (0, 10)] ∧
      (0 : Int) ≠ 5 := by
  decide

/-- Claim C3 amended: for two overlapping windows sharing an identical end
with differing starts, PROVIDED the window with the smaller start is
processed first, clustering produces two adjacent columns whose shared
boundary is exactly the smaller window's start (the larger start
coordinate). -/
theorem c3_amended (a b : Window)
    (hend : a.pos + a.width = b.pos + b.width)
    (hlt : a.pos < b.pos) (hb : 0 < b.width) :
    (calculate_columns [a, b]).map (fun c => (c.start, c.«end»))
      = [(a.pos, b.pos), (b.pos, b.pos + b.width)] := by
  have h1 : ¬ ((WinColumn.from_window a).«end» ≤ (WinColumn.from_window b).start) := by
    show ¬ (a.pos + a.width ≤ b.pos)
    omega
  have h2 : ¬ ((WinColumn.from_window b).«end» ≤ (WinColumn.from_window a).start) := by
    show ¬ (b.pos + b.width ≤ a.pos)
    omega
  have h3 : ¬ ((WinColumn.from_window a).start = (WinColumn.from_window b).start) := by
    show ¬ (a.pos = b.pos)
    omega
  have h4 : (WinColumn.from_window a).«end» = (WinColumn.from_window b).«end» := by
    show a.pos + a.width = b.pos + b.width
    omega
  have hone : calculate_columns [a, b]
      = place_column (WinColumn.from_window b) [WinColumn.from_window a] := rfl
  rw [hone]
  simp only [place_column, if_neg h1, if_neg h2, if_neg h3, if_pos h4]
  simp only [List.map_cons, List.map_nil]
  have hmin : min (WinColumn.from_window a).«end» (WinColumn.from_window b).start
      = b.pos := by
    show min (a.pos + a.width) b.pos = b.pos
    omega
  simp only [hmin]
  rfl

/-- Claim C3 witness input: the amended boundary result at
`a = ⟨0, 10, some 80⟩`, `b = ⟨5, 5, some 80⟩`. -/
theorem c3_amended_witness :
    (0 : Int) + 10 = (5 : Int) + 5 ∧ (0 : Int) < 5 ∧ (0 : Int) < 5 ∧
      (calculate_columns [⟨0, 10, some 80⟩, ⟨5, 5, some 80⟩]).map
        (fun c => (c.start, c.«end»)) = [(0, 5), (5, 10)] :=
  ⟨by decide, by decide, by decide,
    c3_amended ⟨0, 10, some 80⟩ ⟨5, 5, some 80⟩ (by decide) (by decide) (by decide)⟩

/-! ## Clustering over pairwise non-overlapping inputs -/

theorem calc_fold_ok (ws : List Window) : ∀ acc : List WinColumn,
    (∀ c ∈ acc, ∀ w ∈ ws, c.«end» ≤ w.pos ∨ w.pos + w.width ≤ c.start) →
    ws.Pairwise win_disjoint → (∀ w ∈ ws, 0 < w.width) →
    (∀ c ∈ acc, c.start < c.«end») →
    acc.Pairwise (fun a b => a.«end» ≤ b.start) →
    (∀ c ∈ ws.foldl (fun cols w => place_column (WinColumn.from_window w) cols) acc,
        c.start < c.«end») ∧
      (ws.foldl (fun cols w => place_column (WinColumn.from_window w) cols) acc).Pairwise
        (fun a b => a.«end» ≤ b.start) := by
  induction ws with
  | nil =>
    intro acc _ _ _ hval hpair
    exact ⟨hval, hpair⟩
  | cons w rest ih =>
    intro acc hacc hdisj hwidth hval hpair
    rw [List.foldl_cons]
    have hdw : ∀ c ∈ acc,
        c.«end» ≤ (WinColumn.from_window w).start ∨
          (WinColumn.from_window w).«end» ≤ c.start :=
      fun c hc => hacc c hc w (List.mem_cons_self w rest)
    have hwval : (WinColumn.from_window w).start < (WinColumn.from_window w).«end» := by
      have := hwidth w (List.mem_cons_self w rest)
      show w.pos < w.pos + w.width
      omega
    obtain ⟨hval', hpair', hmem'⟩ :=
      place_column_preserves (WinColumn.from_window w) acc hdw hval hwval hpair
    refine ih (place_column (WinColumn.from_window w) acc) ?_
      (List.Pairwise.of_cons hdisj)
      (fun x hx => hwidth x (List.mem_cons_of_mem w hx)) hval' hpair'
    intro c hc w' hw'
    rcases hmem' c hc with rfl | hc'
    · exact (List.pairwise_cons.mp hdisj).1 w' hw'
    · exact hacc c hc' w' (List.mem_cons_of_mem w hw')

theorem calc_fold_perm (ws : List Window) (hdisj : ws.Pairwise win_disjoint) :
    ∀ acc : List WinColumn,
    (∀ c ∈ acc, ∀ w ∈ ws, c.«end» ≤ w.pos ∨ w.pos + w.width ≤ c.start) →
    ((ws.foldl (fun cols w => place_column (WinColumn.from_window w) cols) acc).map
        col_repr).Perm
      (acc.map col_repr ++ ws.map fun w => col_repr (WinColumn.from_window w)) := by
  induction ws with
  | nil =>
    intro acc _
    simp
  | cons w rest ih =>
    intro acc hacc
    rw [List.foldl_cons]
    have hdw : ∀ c ∈ acc,
        c.«end» ≤ (WinColumn.from_window w).start ∨
          (WinColumn.from_window w).«end» ≤ c.start :=
      fun c hc => hacc c hc w (List.mem_cons_self w rest)
    obtain ⟨l₁, l₂, hsplit, hplace, _, _⟩ :=
      place_column_disjoint_split (WinColumn.from_window w) acc hdw
    have hrest : ((rest.foldl (fun cols w => place_column (WinColumn.from_window w) cols)
        (place_column (WinColumn.from_window w) acc)).map col_repr).Perm
        ((place_column (WinColumn.from_window w) acc).map col_repr ++
          rest.map fun w => col_repr (WinColumn.from_window w)) := by
      refine ih (List.Pairwise.of_cons hdisj) _ ?_
      intro c hc w' hw'
      rw [hplace] at hc
      rcases List.mem_append.mp hc with hc | hc
      · refine hacc c ?_ w' (List.mem_cons_of_mem w hw')
        rw [hsplit]
        exact List.mem_append.mpr (Or.inl hc)
      · rcases List.mem_cons.mp hc with rfl | hc
        · exact (List.pairwise_cons.mp hdisj).1 w' hw'
        · refine hacc c ?_ w' (List.mem_cons_of_mem w hw')
          rw [hsplit]
          exact List.mem_append.mpr (Or.inr hc)
    refine hrest.trans ?_
    rw [hplace, hsplit]
    simp only [List.map_append, List.map_cons, List.append_assoc]
    exact List.Perm.append_left _ List.perm_middle.symm

/-! ## Claim C4 -/

/-- Claim C4 counterexample: for the input windows `[5,10)` then `[0,10)`
(overlapping, same end), clustering produces the columns `(5,0)` and
`(0,10)`: the first column violates `start < end`, the columns are not
ordered by `start`, so the claimed unconditional invariants fail. -/
theorem c4_counterexample :
    (calculate_columns [⟨5, 5, some 80⟩, ⟨0, 10, some 80⟩]).map
        (fun c => (c.start, c.«end»)) = [(5, 0), (0, 10)] ∧
      ¬ (∀ c ∈ calculate_columns [⟨5, 5, some 80⟩, ⟨0, 10, some 80⟩],
          c.start < c.«end») := by
  decide

/-- Claim C4 amended: for every input sequence of PAIRWISE NON-OVERLAPPING
windows of positive width, the resulting column set satisfies the
invariants: every column has `start < end`, the columns are ordered
left-to-right by `start`, and they are pairwise non-overlapping. For
overlapping inputs the invariants can fail (see the counterexample). -/
theorem c4_amended (ws : List Window) (hdisj : ws.Pairwise win_disjoint)
    (hwidth : ∀ w ∈ ws, 0 < w.width) :
    (∀ c ∈ calculate_columns ws, c.start < c.«end») ∧
      (calculate_columns ws).Pairwise
        (fun a b => a.start < b.start ∧ a.«end» ≤ b.start) := by
  obtain ⟨hval, hpair⟩ := calc_fold_ok ws [] (by simp) hdisj hwidth (by simp) (by simp)
  refine ⟨hval, ?_⟩
  refine List.Pairwise.imp_of_mem ?_ hpair
  intro a b ha _ hab
  exact ⟨lt_of_lt_of_le (hval a ha) hab, hab⟩

/-- Claim C4 witness input: the invariants on the non-overlapping windows
`[0,10)` and `[20,25)`. -/
theorem c4_amended_witness :
    ([⟨0, 10, some 80⟩, ⟨20, 5, some 90⟩] : List Window).Pairwise win_disjoint ∧
      (∀ w ∈ ([⟨0, 10, some 80⟩, ⟨20, 5, some 90⟩] : List Window), 0 < w.width) ∧
      ((∀ c ∈ calculate_columns [⟨0, 10, some 80⟩, ⟨20, 5, some 90⟩],
          c.start < c.«end») ∧
        (calculate_columns [⟨0, 10, some 80⟩, ⟨20, 5, some 90⟩]).Pairwise
          (fun a b => a.start < b.start ∧ a.«end» ≤ b.start)) :=
  ⟨by decide, by decide,
    c4_amended [⟨0, 10, some 80⟩, ⟨20, 5, some 90⟩] (by decide) (by decide)⟩

/-! ## Claim C7 -/

/-- Claim C7, confirmed: clustering a sequence of pairwise non-overlapping
windows (whose buffer text widths are non-negative, as vim guarantees)
produces exactly one column per input window — the multiset of
`(start, end, textwidth)` triples of the output equals the multiset of
`(start, start + width, textwidth)` triples of the input, so each column's
geometry and text-wrap column are unchanged. -/
theorem c7_disjoint_one_column_per_window (ws : List Window)
    (hdisj : ws.Pairwise win_disjoint)
    (htw : ∀ w ∈ ws, 0 ≤ w.tw.getD 80) :
    ((calculate_columns ws).map col_repr).Perm (ws.map win_repr) := by
  have h := calc_fold_perm ws hdisj [] (by simp)
  simp only [List.map_nil, List.nil_append] at h
  have hmap : (ws.map fun w => col_repr (WinColumn.from_window w)) = ws.map win_repr := by
    refine List.map_congr_left ?_
    intro w hw
    have htww : (WinColumn.from_window w).textwidth = max (w.tw.getD 80) 0 :=
      textwidth_singleton _ w rfl
    unfold col_repr win_repr
    rw [htww, max_eq_left (htw w hw)]
    rfl
  rw [hmap] at h
  exact h

/-- Claim C7 witness input: windows `[0,10)` and `[20,25)` with text widths
80 and 90. -/
theorem c7_witness :
    ([⟨0, 10, some 80⟩, ⟨20, 5, some 90⟩] : List Window).Pairwise win_disjoint ∧
      (∀ w ∈ ([⟨0, 10, some 80⟩, ⟨20, 5, some 90⟩] : List Window),
        0 ≤ w.tw.getD 80) ∧
      ((calculate_columns [⟨0, 10, some 80⟩, ⟨20, 5, some 90⟩]).map col_repr).Perm
        ([⟨0, 10, some 80⟩, ⟨20, 5, some 90⟩].map win_repr) :=
  ⟨by decide, by decide,
    c7_disjoint_one_column_per_window [⟨0, 10, some 80⟩, ⟨20, 5, some 90⟩]
      (by decide) (by decide)⟩

/-! ## Claim C8 -/

theorem col_repr_roundtrip (c : WinColumn) :
    col_repr (WinColumn.from_window (col_to_window c)) = col_repr c := by
  have h1 : (WinColumn.from_window (col_to_window c)).«end» = c.«end» := by
    show c.start + (c.«end» - c.start) = c.«end»
    omega
  have h2 : (WinColumn.from_window (col_to_window c)).textwidth = c.textwidth := by
    rw [textwidth_singleton _ (col_to_window c) rfl]
    show max ((some c.textwidth).getD 80) 0 = c.textwidth
    rw [Option.getD_some]
    exact max_eq_left (textwidth_nonneg c)
  unfold col_repr
  rw [h1, h2]
  rfl

theorem recluster_fold (cs : List WinColumn) : ∀ acc : List WinColumn,
    (∀ a ∈ acc, ∀ c ∈ cs, a.«end» ≤ c.start) →
    cs.Pairwise (fun a b => a.«end» ≤ b.start) →
    (cs.map col_to_window).foldl
        (fun cols w => place_column (WinColumn.from_window w) cols) acc
      = acc ++ cs.map fun c => WinColumn.from_window (col_to_window c) := by
  induction cs with
  | nil =>
    intro acc _ _
    simp
  | cons c rest ih =>
    intro acc hacc hpair
    rw [List.map_cons, List.foldl_cons]
    have hstep : place_column (WinColumn.from_window (col_to_window c)) acc
        = acc ++ [WinColumn.from_window (col_to_window c)] := by
      refine place_column_all_before _ acc ?_
      intro a ha
      exact hacc a ha c (List.mem_cons_self c rest)
    rw [hstep, ih (acc ++ [WinColumn.from_window (col_to_window c)]) ?_ hpair.of_cons]
    · simp [List.append_assoc]
    · intro a ha c' hc'
      rcases List.mem_append.mp ha with ha | ha
      · exact hacc a ha c' (List.mem_cons_of_mem c hc')
      · rcases List.mem_singleton.mp ha with rfl
        show c.start + (c.«end» - c.start) ≤ c'.start
        have := (List.pairwise_cons.mp hpair).1 c' hc'
        omega

/-- Claim C8 counterexample: the input windows `[0,10)`, `[10,20)`,
`[5,25)` produce the ColumnSet with triples `(0,5)`, `(5,25)`, `(10,20)`
(the last two overlap). Feeding those columns back in as single windows
drops the third column (the irregular-overlap branch), yielding only two
columns — re-clustering is not idempotent on every produced ColumnSet. -/
theorem c8_counterexample :
    (calculate_columns [⟨0, 10, some 80⟩, ⟨10, 10, some 80⟩, ⟨5, 20, some 80⟩]).map
        col_repr = [(0, 5, 80), (5, 25, 80), (10, 20, 80)] ∧
      (calculate_columns ((calculate_columns
          [⟨0, 10, some 80⟩, ⟨10, 10, some 80⟩, ⟨5, 20, some 80⟩]).map
            col_to_window)).map col_repr = [(0, 5, 80), (5, 25, 80)] ∧
      ([(0, 5, 80), (5, 25, 80)] : List (Int × Int × Int))
        ≠ [(0, 5, 80), (5, 25, 80), (10, 20, 80)] := by
  decide

/-- Claim C8 amended: re-clustering is idempotent on every ColumnSet whose
columns are pairwise non-overlapping in sequence order (each column's end
at most the next column's start) — in particular on every ColumnSet
produced from non-overlapping inputs. Feeding each column back in as a
single window yields a ColumnSet with the same `(start, end, textwidth)`
triples in the same order. -/
theorem c8_amended (cs : List WinColumn)
    (hpair : cs.Pairwise fun a b => a.«end» ≤ b.start) :
    (calculate_columns (cs.map col_to_window)).map col_repr
      = cs.map col_repr := by
  have h := recluster_fold cs [] (by simp) hpair
  unfold calculate_columns
  rw [h, List.nil_append, List.map_map]
  refine List.map_congr_left ?_
  intro c _
  exact col_repr_roundtrip c

/-- Claim C8 witness input: a two-column ColumnSet `(0,10)·tw 80`,
`(20,30)·tw 90`. -/
theorem c8_amended_witness :
    ([⟨0, 10, [Win.new ⟨0, 10, some 80⟩]⟩,
        ⟨20, 30, [Win.new ⟨20, 10, some 90⟩]⟩] : List WinColumn).Pairwise
        (fun a b => a.«end» ≤ b.start) ∧
      (calculate_columns (([⟨0, 10, [Win.new ⟨0, 10, some 80⟩]⟩,
            ⟨20, 30, [Win.new ⟨20, 10, some 90⟩]⟩] : List WinColumn).map
          col_to_window)).map col_repr
        = ([⟨0, 10, [Win.new ⟨0, 10, some 80⟩]⟩,
            ⟨20, 30, [Win.new ⟨20, 10, some 90⟩]⟩] : List WinColumn).map col_repr :=
  ⟨by decide,
    c8_amended [⟨0, 10, [Win.new ⟨0, 10, some 80⟩]⟩,
      ⟨20, 30, [Win.new ⟨20, 10, some 90⟩]⟩] (by decide)⟩

/-! ## Claim C10 -/

theorem place_column_windows (column : WinColumn) (cs : List WinColumn) :
    ∀ x ∈ place_column column cs,
      x.windows = column.windows ∨ ∃ c ∈ cs, x.windows = c.windows := by
  induction cs with
  | nil =>
    intro x hx
    rcases List.mem_singleton.mp hx with rfl
    exact Or.inl rfl
  | cons c rest ih =>
    intro x hx
    simp only [place_column] at hx
    split_ifs at hx with h1 h2 h3 h4 h5 h6
    · rcases List.mem_cons.mp hx with rfl | hx
      · exact Or.inr ⟨x, List.mem_cons_self x rest, rfl⟩
      · rcases ih x hx with h | ⟨c', hc', h⟩
        · exact Or.inl h
        · exact Or.inr ⟨c', List.mem_cons_of_mem c hc', h⟩
    · rcases List.mem_cons.mp hx with rfl | hx
      · exact Or.inl rfl
      · rcases List.mem_cons.mp hx with rfl | hx
        · exact Or.inr ⟨x, List.mem_cons_self x rest, rfl⟩
        · exact Or.inr ⟨x, List.mem_cons_of_mem c hx, rfl⟩
    · rcases List.mem_cons.mp hx with rfl | hx
      · exact Or.inr ⟨c, List.mem_cons_self c rest, rfl⟩
      · exact Or.inr ⟨x, List.mem_cons_of_mem c hx, rfl⟩
    · rcases List.mem_cons.mp hx with rfl | hx
      · exact Or.inr ⟨c, List.mem_cons_self c rest, rfl⟩
      · rcases List.mem_cons.mp hx with rfl | hx
        · exact Or.inl rfl
        · exact Or.inr ⟨x, List.mem_cons_of_mem c hx, rfl⟩
    · rcases List.mem_cons.mp hx with rfl | hx
      · exact Or.inr ⟨c, List.mem_cons_self c rest, rfl⟩
      · rcases List.mem_cons.mp hx with rfl | hx
        · exact Or.inl rfl
        · exact Or.inr ⟨x, List.mem_cons_of_mem c hx, rfl⟩
    · rcases List.mem_cons.mp hx with rfl | hx
      · exact Or.inl rfl
      · rcases List.mem_cons.mp hx with rfl | hx
        · exact Or.inr ⟨x, List.mem_cons_self x rest, rfl⟩
        · exact Or.inr ⟨x, List.mem_cons_of_mem c hx, rfl⟩
    · rcases List.mem_cons.mp hx with rfl | hx
      · exact Or.inr ⟨x, List.mem_cons_self x rest, rfl⟩
      · exact Or.inr ⟨x, List.mem_cons_of_mem c hx, rfl⟩

theorem calc_fold_windows (ws : List Window) : ∀ acc : List WinColumn,
    ∀ c ∈ ws.foldl (fun cols w => place_column (WinColumn.from_window w) cols) acc,
      (∃ w ∈ ws, c.windows = [Win.new w]) ∨ ∃ a ∈ acc, c.windows = a.windows := by
  induction ws with
  | nil =>
    intro acc c hc
    exact Or.inr ⟨c, hc, rfl⟩
  | cons w rest ih =>
    intro acc c hc
    rw [List.foldl_cons] at hc
    rcases ih (place_column (WinColumn.from_window w) acc) c hc with
      ⟨w', hw', h⟩ | ⟨a, ha, h⟩
    · exact Or.inl ⟨w', List.mem_cons_of_mem w hw', h⟩
    · rcases place_column_windows (WinColumn.from_window w) acc a ha with h' | ⟨a', ha', h'⟩
      · exact Or.inl ⟨w, List.mem_cons_self w rest, h.trans h'⟩
      · exact Or.inr ⟨a', ha', h.trans h'⟩

/-- Claim C10, confirmed: for every input window sequence, every column of
the produced ColumnSet holds exactly one window — the singleton created by
`from_window` (`add_win` is never reached by the clustering loop), its
stacking counter `num_colums` is 1, and the column's `textwidth` is
computed from that single window's buffer alone (the max-with-0 fold over
the singleton list). -/
theorem c10_single_window_per_column (ws : List Window) :
    ∀ c ∈ calculate_columns ws, ∃ w ∈ ws, c.windows = [Win.new w] ∧
      (Win.new w).num_colums = 1 ∧ c.textwidth = max (w.tw.getD 80) 0 := by
  intro c hc
  rcases calc_fold_windows ws [] c hc with ⟨w, hw, h⟩ | ⟨a, ha, _⟩
  · exact ⟨w, hw, h, rfl, textwidth_singleton c w h⟩
  · exact absurd ha (List.not_mem_nil a)

/-- Claim C10 witness input: the single window `[0,10)` with text width 80
and the unique column it produces. -/
theorem c10_witness :
    WinColumn.from_window ⟨0, 10, some 80⟩
        ∈ calculate_columns [⟨0, 10, some 80⟩] ∧
      ∃ w ∈ ([⟨0, 10, some 80⟩] : List Window),
        (WinColumn.from_window ⟨0, 10, some 80⟩).windows = [Win.new w] ∧
          (Win.new w).num_colums = 1 ∧
          (WinColumn.from_window ⟨0, 10, some 80⟩).textwidth
            = max (w.tw.getD 80) 0 :=
  ⟨by decide,
    c10_single_window_per_column [⟨0, 10, some 80⟩]
      (WinColumn.from_window ⟨0, 10, some 80⟩) (by decide)⟩

/-! ## Width calculator (`Vim::get_desired_symbol_width`) -/

/-- Rounding of Rust `f64::round`: round half away from zero. -/
def rust_round (q : ℚ) : Int :=
  if 0 ≤ q then ⌊q + 1/2⌋ else -⌊-q + 1/2⌋

/-- Model of `Vim::get_desired_symbol_width`: fold the column-width
coefficient times each column's `textwidth` into a running sum, then round.
The Rust `f64` arithmetic is modelled exactly over `ℚ`; the coefficient is
`column_width_koeff` (default 1.2). -/
def get_desired_symbol_width (k : ℚ) (cols : List WinColumn) : Int :=
  rust_round (cols.foldl (fun summ c => summ + k * (c.textwidth : ℚ)) 0)

theorem foldl_add_eq_sum (f : WinColumn → ℚ) (l : List WinColumn) :
    ∀ init : ℚ, l.foldl (fun s c => s + f c) init = init + (l.map f).sum := by
  induction l with
  | nil =>
    intro init
    simp
  | cons c rest ih =>
    intro init
    rw [List.foldl_cons, ih (init + f c), List.map_cons, List.sum_cons]
    ring

/-- Claim C9, confirmed: `get_desired_symbol_width` equals the rounded sum
over all columns of the coefficient times the column's text-wrap column;
in particular, for columns with text widths 80 and 100 and coefficient
1.2 = 6/5 it equals round(1.2·80 + 1.2·100) = 216. -/
theorem c9_desired_symbol_width (k : ℚ) (cols : List WinColumn) :
    get_desired_symbol_width k cols
        = rust_round ((cols.map fun c => k * (c.textwidth : ℚ)).sum) ∧
      get_desired_symbol_width (6/5)
        [WinColumn.from_window ⟨0, 80, some 80⟩,
          WinColumn.from_window ⟨100, 100, some 100⟩] = 216 := by
  constructor
  · unfold get_desired_symbol_width
    rw [foldl_add_eq_sum (fun c => k * (c.textwidth : ℚ)) cols 0, zero_add]
  · have h1 : (WinColumn.from_window ⟨0, 80, some 80⟩).textwidth = 80 := by decide
    have h2 : (WinColumn.from_window ⟨100, 100, some 100⟩).textwidth = 100 := by
      decide
    unfold get_desired_symbol_width
    rw [List.foldl_cons, List.foldl_cons, List.foldl_nil, h1, h2]
    unfold rust_round
    rw [if_pos (by norm_num)]
    rw [Int.floor_eq_iff]
    constructor <;> norm_num

/-! ## Data model of `src/pstree.rs` -/

/-- Model of `ProcessRecord` from `src/pstree.rs`. -/
structure ProcessRecord where
  pid : Int
  ppid : Int
deriving DecidableEq, Repr

/-- Model of `ProcessTreeNode` from `src/pstree.rs`: the node owns its
record and its ordered child nodes. -/
inductive ProcessTreeNode where
  | mk (record : ProcessRecord) (children : List ProcessTreeNode)

/-- Accessor for the `record` field of a tree node. -/
def ProcessTreeNode.record : ProcessTreeNode → ProcessRecord
  | .mk r _ => r

/-- Accessor for the `children` field of a tree node. -/
def ProcessTreeNode.children : ProcessTreeNode → List ProcessTreeNode
  | .mk _ c => c

/-- Model of `ProcessTree`: it owns the root node. -/
structure ProcessTree where
  root : ProcessTreeNode

/-! ## Session discovery (`Vim::try_session_from`)

The neovim session type and the connection error type are opaque
parameters `σ` and `ε`; `connect` models `Session::new_unix_socket`, that
is, the state of the filesystem and of the listening editor sockets. -/

/-- Socket path construction of `Vim::try_session_from`:
`format!("/run/user/{}/nvim.{}.0", uid, node.record.pid)`. -/
def socket_path (uid : Nat) (pid : Int) : String :=
  "/run/user/" ++ toString uid ++ "/nvim." ++ toString pid ++ ".0"

mutual

/-- Model of `Vim::try_session_from`: attempt to connect to the socket
derived from the node's pid; on failure, fold over the children with the
root's error as the initial result, each failing child replacing the
result, each success short-circuiting the rest. -/
def try_session_from {ε σ : Type} (connect : String → Except ε σ) (uid : Nat) :
    ProcessTreeNode → Except ε σ
  | .mk record children =>
    match connect (socket_path uid record.pid) with
    | .ok s => .ok s
    | .error err => try_children connect uid (.error err) children

/-- The `children.iter().fold(Err(err), |res, elem| res.or_else(...))` loop
of `Vim::try_session_from`. -/
def try_children {ε σ : Type} (connect : String → Except ε σ) (uid : Nat) :
    Except ε σ → List ProcessTreeNode → Except ε σ
  | res, [] => res
  | res, c :: rest =>
    try_children connect uid
      (match res with
       | .ok s => .ok s
       | .error _ => try_session_from connect uid c) rest

end

mutual

/-- Specification-side search: the session of the first node, in
depth-first left-to-right (preorder) traversal, whose socket is
connectable; `none` when no node of the subtree connects. This definition
follows the specification's words and is compared against
`try_session_from`. -/
def dfs_first_ok {ε σ : Type} (connect : String → Except ε σ) (uid : Nat) :
    ProcessTreeNode → Option σ
  | .mk record children =>
    match connect (socket_path uid record.pid) with
    | .ok s => some s
    | .error _ => dfs_first_list connect uid children

/-- First success among a list of subtrees, in order. -/
def dfs_first_list {ε σ : Type} (connect : String → Except ε σ) (uid : Nat) :
    List ProcessTreeNode → Option σ
  | [] => none
  | c :: rest =>
    match dfs_first_ok connect uid c with
    | some s => some s
    | none => dfs_first_list connect uid rest

end

mutual

/-- The connection attempt of the LAST node attempted by the fold of
`try_session_from` within this subtree: the node itself when it has no
children, otherwise the last attempt within the last child's subtree
(the rightmost deepest node). -/
def last_attempt {ε σ : Type} (connect : String → Except ε σ) (uid : Nat) :
    ProcessTreeNode → Except ε σ
  | .mk record children =>
    last_attempt_list connect uid (connect (socket_path uid record.pid)) children

/-- Last attempt across a list of subtrees, starting from a given result of
the previous attempt. -/
def last_attempt_list {ε σ : Type} (connect : String → Except ε σ) (uid : Nat) :
    Except ε σ → List ProcessTreeNode → Except ε σ
  | res, [] => res
  | _, c :: rest =>
    last_attempt_list connect uid (last_attempt connect uid c) rest

end

theorem try_children_of_ok {ε σ : Type} (connect : String → Except ε σ)
    (uid : Nat) (s : σ) :
    ∀ cs : List ProcessTreeNode, try_children connect uid (.ok s) cs = .ok s := by
  intro cs
  induction cs with
  | nil => rfl
  | cons c rest ih => exact ih

mutual

theorem last_attempt_error_of_none {ε σ : Type} (connect : String → Except ε σ)
    (uid : Nat) : ∀ n : ProcessTreeNode, dfs_first_ok connect uid n = none →
    ∃ e, last_attempt connect uid n = .error e := by
  intro n h
  match n with
  | .mk record children =>
    rw [dfs_first_ok] at h
    rw [last_attempt]
    match hc : connect (socket_path uid record.pid) with
    | .ok s => rw [hc] at h; exact absurd h (by simp)
    | .error err =>
      rw [hc] at h
      exact last_attempt_list_error_of_none connect uid children h err

theorem last_attempt_list_error_of_none {ε σ : Type}
    (connect : String → Except ε σ) (uid : Nat) :
    ∀ cs : List ProcessTreeNode, dfs_first_list connect uid cs = none →
    ∀ e : ε, ∃ e', last_attempt_list connect uid (.error e) cs = .error e' := by
  intro cs h e
  match cs with
  | [] => exact ⟨e, rfl⟩
  | c :: rest =>
    rw [dfs_first_list] at h
    rw [last_attempt_list]
    match hdc : dfs_first_ok connect uid c with
    | some s => rw [hdc] at h; exact absurd h (by simp)
    | none =>
      rw [hdc] at h
      obtain ⟨e₁, he₁⟩ := last_attempt_error_of_none connect uid c hdc
      rw [he₁]
      exact last_attempt_list_error_of_none connect uid rest h e₁

end

mutual

theorem try_session_char {ε σ : Type} (connect : String → Except ε σ)
    (uid : Nat) : ∀ n : ProcessTreeNode,
    try_session_from connect uid n
      = match dfs_first_ok connect uid n with
        | some s => .ok s
        | none => last_attempt connect uid n := by
  intro n
  match n with
  | .mk record children =>
    rw [try_session_from, dfs_first_ok, last_attempt]
    match hc : connect (socket_path uid record.pid) with
    | .ok s => rfl
    | .error err =>
      exact try_children_char connect uid children err

theorem try_children_char {ε σ : Type} (connect : String → Except ε σ)
    (uid : Nat) : ∀ (cs : List ProcessTreeNode) (e : ε),
    try_children connect uid (.error e) cs
      = match dfs_first_list connect uid cs with
        | some s => .ok s
        | none => last_attempt_list connect uid (.error e) cs := by
  intro cs e
  match cs with
  | [] => rfl
  | c :: rest =>
    rw [try_children, dfs_first_list, last_attempt_list]
    match hdc : dfs_first_ok connect uid c with
    | some s =>
      have hcok : try_session_from connect uid c = .ok s := by
        rw [try_session_char connect uid c, hdc]
      rw [hcok]
      exact try_children_of_ok connect uid s rest
    | none =>
      have hcerr := last_attempt_error_of_none connect uid c hdc
      obtain ⟨e₁, he₁⟩ := hcerr
      have hcc : try_session_from connect uid c = .error e₁ := by
        rw [try_session_char connect uid c, hdc, he₁]
      rw [hcc, he₁]
      exact try_children_char connect uid rest e₁

end

/-! ## Claim C6 -/

/-- Claim C6, confirmed: whenever some node of the tree has a connectable
socket — i.e. the specification-side depth-first left-to-right search
`dfs_first_ok` finds a session — `try_session_from` returns exactly that
session: the one of the first connectable node in preorder. In particular
a tree whose only connectable node is a grandchild yields that
grandchild's session rather than a failure (see the witness). -/
theorem c6_dfs_first_success {ε σ : Type} (connect : String → Except ε σ)
    (uid : Nat) (n : ProcessTreeNode) (s : σ)
    (h : dfs_first_ok connect uid n = some s) :
    try_session_from connect uid n = .ok s := by
  rw [try_session_char connect uid n, h]

/-- Connection environment for the C6 witness: only the socket of pid 3 is
connectable (session value 33); every other path fails with error 7. -/
def conn_grandchild : String → Except Nat Nat :=
  fun p => if p = "/run/user/1000/nvim.3.0" then .ok 33 else .error 7

/-- Three-generation process tree: root pid 1, child pid 2,
grandchild pid 3. -/
def tree_three : ProcessTreeNode := .mk ⟨1, 0⟩ [.mk ⟨2, 1⟩ [.mk ⟨3, 2⟩ []]]

/-- Claim C6 witness input: root pid 1 and child pid 2 fail to connect, and
only grandchild pid 3 is connectable; discovery returns the grandchild's
session 33. -/
theorem c6_witness :
    dfs_first_ok conn_grandchild 1000 tree_three = some 33 ∧
      try_session_from conn_grandchild 1000 tree_three = .ok 33 :=
  ⟨rfl, c6_dfs_first_success conn_grandchild 1000 tree_three 33 rfl⟩

/-! ## Claim C2 -/

/-- Connection environment where every socket fails: the root's path
(pid 1) with error 10, every other path with error 20. -/
def conn_all_fail : String → Except Nat Nat :=
  fun p => .error (if p = "/run/user/1000/nvim.1.0" then 10 else 20)

/-- Two-node process tree: root pid 1 with the single child pid 2. -/
def tree_two : ProcessTreeNode := .mk ⟨1, 0⟩ [.mk ⟨2, 1⟩ []]

/-- Claim C2 counterexample: root pid 1 fails with error 10, its child
pid 2 fails with error 20, and no node connects. The claim says discovery
fails with the ROOT's error 10; the code instead returns the child's error
20 — the fold `res.or_else(|_| Ok(try_session_from(..)?))` replaces the
accumulated error with each failing child's error, so it is the root's
error that is discarded. -/
theorem c2_counterexample :
    try_session_from conn_all_fail 1000 tree_two = .error 20 ∧
      conn_all_fail (socket_path 1000 1) = .error 10 ∧
      (20 : Nat) ≠ 10 :=
  ⟨rfl, rfl, by decide⟩

/-- Claim C2 amended: when no node of the subtree yields a connectable
socket, `try_session_from` fails with the error of the LAST attempted
connection — the rightmost deepest node of the subtree (`last_attempt`);
the root's own error is returned only when the root has no children.
Errors of earlier attempts, the root's included, are discarded. -/
theorem c2_amended {ε σ : Type} (connect : String → Except ε σ)
    (uid : Nat) (n : ProcessTreeNode)
    (h : dfs_first_ok connect uid n = none) :
    try_session_from connect uid n = last_attempt connect uid n ∧
      ∃ e, last_attempt connect uid n = .error e := by
  refine ⟨?_, last_attempt_error_of_none connect uid n h⟩
  rw [try_session_char connect uid n, h]

/-- Claim C2 witness input: the all-failing two-node tree of the
counterexample; the returned error is the last attempt's (the child's). -/
theorem c2_amended_witness :
    dfs_first_ok conn_all_fail 1000 tree_two = none ∧
      (try_session_from conn_all_fail 1000 tree_two
          = last_attempt conn_all_fail 1000 tree_two ∧
        ∃ e, last_attempt conn_all_fail 1000 tree_two = .error e) :=
  ⟨rfl, c2_amended conn_all_fail 1000 tree_two rfl⟩

/-! ## Process enumeration and tree construction (`src/pstree.rs`)

Status-file text is modelled as lists of characters; the process-metadata
source (the `/proc` listing) as a list of `DirEntry` values recording the
outcome of each fallible filesystem step. -/

/-- Model of `str::splitn(2, ':')`: `none` when the line holds no colon
(Rust then yields a single part, failing the `parts.len() == 2` check and
skipping the line), otherwise the text before the first colon paired with
all the text after it. -/
def splitn2_colon : List Char → Option (List Char × List Char)
  | [] => none
  | c :: rest =>
    if c = ':' then some ([], rest)
    else (splitn2_colon rest).map fun p => (c :: p.1, p.2)

/-- Model of `str::trim`: drop whitespace from both ends. -/
def trim_chars (l : List Char) : List Char :=
  ((l.dropWhile Char.isWhitespace).reverse.dropWhile Char.isWhitespace).reverse

/-- Decimal digits of `str::parse`: at least one digit, most significant
first; any non-digit character fails the parse. -/
def parse_digits : List Char → Option Nat
  | [] => none
  | l =>
    l.foldl
      (fun acc c => acc.bind fun n =>
        if c.isDigit then some (10 * n + (c.toNat - '0'.toNat)) else none)
      (some 0)

/-- Model of `str::parse::<i32>` on the trimmed value text: an optional
sign followed by at least one decimal digit (the `i32` overflow failure is
not modelled; the pids in play are small). -/
def parse_int (l : List Char) : Option Int :=
  match l with
  | '-' :: rest => (parse_digits rest).map fun n => -(n : Int)
  | '+' :: rest => (parse_digits rest).map fun n => (n : Int)
  | _ => (parse_digits l).map fun n => (n : Int)

/-- Model of `get_process_record`: scan the status lines in order, keeping
the last parse outcome for the keys `Pid` and `PPid` (a later line for the
same key overwrites an earlier one, and a malformed value resets it to
`None`); produce a record only when both are present at the end. -/
def get_process_record (lines : List (List Char)) : Option ProcessRecord :=
  let pp := lines.foldl
    (fun (pp : Option Int × Option Int) linebuf =>
      match splitn2_colon linebuf with
      | some parts =>
        let key := trim_chars parts.1
        let value := trim_chars parts.2
        if key = "Pid".toList then (parse_int value, pp.2)
        else if key = "PPid".toList then (pp.1, parse_int value)
        else pp
      | none => pp)
    (none, none)
  match pp with
  | (some pid, some ppid) => some ⟨pid, ppid⟩
  | _ => none

/-- One directory entry of `/proc` as seen by `get_process_records`, with
the outcome of each fallible filesystem step: `entry_ok` is the `read_dir`
entry itself (`entry.unwrap()`); `metadata_ok` is `fs::metadata(entry_path)`
(also `.unwrap()`); `is_dir` is whether that metadata is a directory;
`status_is_file` is whether `fs::metadata(status_path)` succeeded AND is a
file (checked without unwrap — a failure here is silently skipped);
`status_open_ok` is `File::open(status_path)` (`.unwrap()`);
`status_lines` are the lines read from the opened status file. -/
structure DirEntry where
  entry_ok : Bool
  metadata_ok : Bool
  is_dir : Bool
  status_is_file : Bool
  status_open_ok : Bool
  status_lines : List (List Char)
deriving DecidableEq, Repr

/-- Outcome of one entry inside the `filter_map` of `get_process_records`:
`none` models a panic of one of the `unwrap()` calls, `some none` a
silently skipped entry, and `some (some r)` a parsed record. -/
def process_entry (e : DirEntry) : Option (Option ProcessRecord) :=
  if !e.entry_ok then none
  else if !e.metadata_ok then none
  else if e.is_dir then
    if e.status_is_file then
      if e.status_open_ok then some (get_process_record e.status_lines)
      else none
    else some none
  else some none

/-- Model of `get_process_records` over a modelled `/proc` listing: `none`
when any entry's `unwrap()` panics, otherwise the records of the parseable
status files in directory order. -/
def get_process_records : List DirEntry → Option (List ProcessRecord)
  | [] => some []
  | e :: rest =>
    match process_entry e, get_process_records rest with
    | some (some r), some l => some (r :: l)
    | some none, some l => some l
    | _, _ => none

/-- The children pids of `pid` in the `ppid_map` built by `populate_node`:
the pids of the records whose parent pid is `pid`, in record order. -/
def child_pids (records : List ProcessRecord) (pid : Int) : List Int :=
  (records.filter fun r => r.ppid == pid).map fun r => r.pid

/-- The `pid_map` lookup of `populate_node_helper`: the LAST record with
the given pid (`HashMap::insert` overwrites earlier entries). The default
is never reached by the tree builder, whose keys always come from the
record list itself. -/
def pid_lookup (records : List ProcessRecord) (pid : Int) : ProcessRecord :=
  (records.reverse.find? fun r => r.pid == pid).getD ⟨pid, 0⟩

/-- Model of `populate_node_helper`: recursively attach, to a node holding
`record`, the subtrees of the records whose parent pid is the node's pid.
The Rust recursion has no termination bound of its own and would diverge
on cyclic parent-pid data (which `/proc` never produces); the model bounds
the recursion depth by `fuel`, and `build_process_tree` supplies fuel
sufficient for every acyclic record set. -/
def populate_node_helper (records : List ProcessRecord) :
    Nat → ProcessRecord → ProcessTreeNode
  | 0, record => .mk record []
  | fuel + 1, record =>
    .mk record ((child_pids records record.pid).map
      fun cpid => populate_node_helper records fuel (pid_lookup records cpid))

/-- Model of `build_process_tree`: enumerate the records (propagating a
panic as `none`), then populate a tree from the synthetic root record
`(pid.unwrap_or(0), -1)`. -/
def build_process_tree (pid : Option Int) (dir : List DirEntry) :
    Option ProcessTree :=
  (get_process_records dir).map fun records =>
    ⟨populate_node_helper records records.length ⟨pid.getD 0, -1⟩⟩

/-- A directory entry every fallible filesystem step of which succeeds, so
that no `unwrap()` of `get_process_records` can panic on it. -/
def DirEntry.readable (e : DirEntry) : Prop :=
  e.entry_ok = true ∧ e.metadata_ok = true ∧
    (e.is_dir = true → e.status_is_file = true → e.status_open_ok = true)

instance (e : DirEntry) : Decidable e.readable := by
  unfold DirEntry.readable
  infer_instance

theorem process_entry_isSome_of_readable (e : DirEntry) (h : e.readable) :
    ∃ r, process_entry e = some r := by
  obtain ⟨h1, h2, h3⟩ := h
  unfold process_entry
  rw [h1, h2]
  cases hd : e.is_dir with
  | false => exact ⟨none, rfl⟩
  | true =>
    cases hf : e.status_is_file with
    | false => simp
    | true =>
      rw [h3 hd hf]
      simp

theorem get_process_records_of_readable (dir : List DirEntry)
    (h : ∀ e ∈ dir, e.readable) :
    ∃ records, get_process_records dir = some records := by
  induction dir with
  | nil => exact ⟨[], rfl⟩
  | cons e rest ih =>
    obtain ⟨records, hrec⟩ := ih fun x hx => h x (List.mem_cons_of_mem e hx)
    obtain ⟨r, hr⟩ := process_entry_isSome_of_readable e (h e (List.mem_cons_self e rest))
    rw [get_process_records, hr, hrec]
    cases r with
    | none => exact ⟨records, rfl⟩
    | some r => exact ⟨r :: records, rfl⟩

theorem populate_node_helper_record (records : List ProcessRecord) :
    ∀ (fuel : Nat) (record : ProcessRecord),
      (populate_node_helper records fuel record).record = record
  | 0, _ => rfl
  | _ + 1, _ => rfl

theorem pid_lookup_pid (records : List ProcessRecord) (p : Int) :
    (pid_lookup records p).pid = p := by
  unfold pid_lookup
  match hf : records.reverse.find? fun r => r.pid == p with
  | some r =>
    have hbeq := List.find?_some hf
    rw [hf, Option.getD_some]
    exact eq_of_beq hbeq
  | none =>
    rw [hf]
    rfl

theorem populate_root_children (records : List ProcessRecord) (root : ProcessRecord) :
    ((populate_node_helper records records.length root).children.map
        fun n => n.record.pid)
      = child_pids records root.pid := by
  match hrec : records with
  | [] =>
    show List.map _ (ProcessTreeNode.children (.mk root [])) = child_pids [] root.pid
    simp [ProcessTreeNode.children, child_pids]
  | r :: rest =>
    rw [List.length_cons, populate_node_helper]
    show ((child_pids (r :: rest) root.pid).map _).map _ = _
    rw [List.map_map]
    refine List.map_congr_left ?_ |>.trans (List.map_id _)
    intro cpid _
    show (populate_node_helper _ _ (pid_lookup (r :: rest) cpid)).record.pid = cpid
    rw [populate_node_helper_record, pid_lookup_pid]

/-! ## Claim C5 -/

/-- Claim C5 counterexample: a readable `/proc` with the single record
pid 5, parent pid 7. Querying `build_process_tree` for root pid 7 — a pid
that appears as NO record's pid — yields a root that nevertheless has the
child 5, because the children index is keyed by parent pid alone: the
claimed "empty children list" is false. -/
theorem c5_counterexample :
    (build_process_tree (some 7)
          [⟨true, true, true, true, true,
            [("Pid:\t5").toList, ("PPid:\t7").toList]⟩]).map
        (fun t => (t.root.record.pid, t.root.children.map fun n => n.record.pid))
      = some (7, [5]) ∧
      ([5] : List Int) ≠ [] := by
  decide

/-- Claim C5 amended: provided every enumerated directory entry is readable
(every `unwrap()` of the enumeration succeeds — an unreadable entry
panics instead of being skipped, and only MALFORMED status content is
silently skipped), `build_process_tree` never fails: it returns a tree
whose root carries `root_pid` (with sentinel parent -1) and whose children
are exactly the enumerated records whose parent pid equals `root_pid` —
an empty children list only when there are none such. -/
theorem c5_amended (dir : List DirEntry) (rp : Int)
    (h : ∀ e ∈ dir, e.readable) :
    ∃ records, get_process_records dir = some records ∧
      ∃ t, build_process_tree (some rp) dir = some t ∧
        t.root.record = ⟨rp, -1⟩ ∧
        (t.root.children.map fun n => n.record.pid) = child_pids records rp := by
  obtain ⟨records, hrec⟩ := get_process_records_of_readable dir h
  refine ⟨records, hrec, ?_⟩
  refine ⟨⟨populate_node_helper records records.length ⟨rp, -1⟩⟩, ?_, ?_, ?_⟩
  · unfold build_process_tree
    rw [hrec]
    rfl
  · exact populate_node_helper_record records records.length ⟨rp, -1⟩
  · exact populate_root_children records ⟨rp, -1⟩

/-- Claim C5 witness input: the single-record readable directory of the
counterexample, root pid 7. -/
theorem c5_amended_witness :
    (∀ e ∈ [(⟨true, true, true, true, true,
        [("Pid:\t5").toList, ("PPid:\t7").toList]⟩ : DirEntry)], e.readable) ∧
      ∃ records, get_process_records
          [(⟨true, true, true, true, true,
            [("Pid:\t5").toList, ("PPid:\t7").toList]⟩ : DirEntry)] = some records ∧
        ∃ t, build_process_tree (some 7)
            [(⟨true, true, true, true, true,
              [("Pid:\t5").toList, ("PPid:\t7").toList]⟩ : DirEntry)] = some t ∧
          t.root.record = ⟨7, -1⟩ ∧
          (t.root.children.map fun n => n.record.pid) = child_pids records 7 :=
  ⟨by decide,
    c5_amended
      [(⟨true, true, true, true, true,
        [("Pid:\t5").toList, ("PPid:\t7").toList]⟩ : DirEntry)] 7 (by decide)⟩

end NiriLauncher
